import Mathlib

/-!
Verification development for the snn-classifier spiking-network simulator.

The definitions below are a shallow embedding of the iterative event-discovery
simulation engine of `snncls/network/multilayer_srm.py` (`MultilayerSRM.simulate`
and `MultilayerSRMSub.simulate`), of the learning-window kernels of
`snncls/supervised/learnwindow.py`, and of the `MultilayerSRMSub.__init__`
delay-construction entry point.

Modelling conventions:
* Machine floats are modelled by `ℚ`.  The two external real-valued functions
  (`numpy.exp` inside the escape-rate model, and `numpy.exp` inside the
  exponential learning window) enter as explicit function parameters
  (`act : ℚ → ℚ`, `expf : ℚ → ℚ`), exactly as they are pluggable objects
  (`EscapeRate`) in the source.
* A numpy array along the time axis is a `List ℚ` of length `num_iter`.
* The per-network `numpy.random.RandomState` is a stream of uniform samples
  together with a consumption position (`RNG`); `rng.uniform(size=n)` hands out
  the next `n` stream values in row-major order and advances the position.
* Python `assert` failures and numpy broadcast errors are `Except.error`.
* A dense stimulus (`stimulus_as_psps` pass-through) is a `List (List ℚ)` of
  per-input-neuron PSP rows.
-/

/-- Pseudo-random generator state: an infinite stream of uniform samples in
`[0,1)` plus the number of samples consumed so far. -/
structure RNG where
  stream : ℕ → ℚ
  pos : ℕ

/-- Draw `n` uniform samples: returns the flat (row-major) sample array and the
advanced generator, mirroring `self.rng.uniform(size=...)`. -/
def RNG.draw (r : RNG) (n : ℕ) : (ℕ → ℚ) × RNG :=
  (fun k => r.stream (r.pos + k), ⟨r.stream, r.pos + n⟩)

/-- Helper for `addFrom`: walks the trace with a running absolute position
counter `t0`. -/
def addFromAux (ker : ℕ → ℚ) : List ℚ → ℕ → ℕ → List ℚ
  | [], _, _ => []
  | x :: xs, f, t0 => (if f ≤ t0 then x + ker (t0 - f) else x) :: addFromAux ker xs f (t0 + 1)

/-- In-place kernel superposition `v[f:] += ker[:len(v) - f]`
(`potentials[i, fire_idx:] += self.lut['refr'][:iters]` and
`psps[i, fire_idx:] += self.lut['psp'][:iters]`): positions before `f` are
untouched and the kernel is truncated to the remaining steps. -/
def addFrom (v : List ℚ) (f : ℕ) (ker : ℕ → ℚ) : List ℚ :=
  addFromAux ker v f 0

/-- Delayed kernel superposition used by `MultilayerSRMSub.simulate`:
`if fire_idx_delay < num_iter: psps[i, j, fire_idx_delay:] += lut['psp'][:iters-delay]`.
A start index at or past the end of the trace is a silent no-op. -/
def addFromGuarded (v : List ℚ) (start : ℕ) (ker : ℕ → ℚ) : List ℚ :=
  if start < v.length then addFrom v start ker else v

/-- Read a lookup table (`self.lut[...]`) as a total function on step offsets. -/
def kerOf (lut : List ℚ) : ℕ → ℚ := fun k => lut.getD k 0

/-- Sorted list of time indices satisfying a predicate: `np.where(cond)[0]`. -/
def candIdxs (n : ℕ) (p : ℕ → Bool) : List ℕ :=
  (List.range n).filter p

/-- Candidate spike indices of a hidden neuron:
`np.where(unif_samples[i] < rates * self.dt)[0]` with
`rates = self.neuron_h.activation(potentials[i])`. -/
def hiddenCand (dt : ℚ) (act : ℚ → ℚ) (numIter : ℕ) (smp : ℕ → ℚ) (u : List ℚ) : List ℕ :=
  candIdxs numIter fun t => decide (smp t < act (u.getD t 0) * dt)

/-- Candidate spike indices of an output neuron:
`np.where(potentials[i] > self.cell_params['theta'])[0]`. -/
def outputCand (theta : ℚ) (numIter : ℕ) (u : List ℚ) : List ℕ :=
  candIdxs numIter fun t => decide (theta < u.getD t 0)

/-- Per-neuron spike-discovery `while True` loop shared by the hidden and output
layers of both `simulate` variants.  State: the neuron's potential trace `u`,
an outgoing accumulator `out` (its evoked-PSP row(s)), and the list `train` of
accepted fire indices.  Each iteration recomputes the candidate set `thr` from
the current trace; if `num_spikes < len(thr_idxs)` it accepts
`fire_idx = thr_idxs[num_spikes]`, adds the refractory kernel from `fire_idx`
on, emits the neuron's own PSP kernel, appends the spike and (unless `latency`)
repeats, otherwise it breaks.  `fuel` bounds the iteration count; every call
below passes `numIter + 1`, which is never exhausted since an accepted spike
requires `train.length < numIter`. -/
def spikeLoop {α : Type} (cand : List ℚ → List ℕ) (refr : ℕ → ℚ)
    (emit : ℕ → α → α) (latency : Bool) :
    ℕ → List ℚ → α → List ℕ → List ℚ × α × List ℕ
  | 0, u, out, train => (u, out, train)
  | fuel + 1, u, out, train =>
    let thr := cand u
    if train.length < thr.length then
      let f := thr.getD train.length 0
      let u' := addFrom u f refr
      let out' := emit f out
      let train' := train ++ [f]
      if latency then (u', out', train')
      else spikeLoop cand refr emit latency fuel u' out' train'
    else (u, out, train)

/-- Raw potential trace of one post-neuron: `np.dot(self.w[l], psps)` row `i`,
i.e. the weighted sum over presynaptic PSP rows at every time step. -/
def weightedSum (w : ℕ → ℚ) (psps : List (List ℚ)) (numIter : ℕ) : List ℚ :=
  (List.range numIter).map fun t =>
    ((List.range psps.length).map fun j => w j * ((psps.getD j []).getD t 0)).sum

/-- Raw potential trace of one post-neuron in the subconnection variant:
`np.tensordot(self.w[l], psps)` row `i`, contracting both the presynaptic and
the subconnection axes. -/
def weightedSumSub (w : ℕ → ℕ → ℚ) (psps : List (List (List ℚ))) (numIter : ℕ) : List ℚ :=
  (List.range numIter).map fun t =>
    ((List.range psps.length).map fun j =>
      ((List.range ((psps.getD j []).length)).map fun s =>
        w j s * (((psps.getD j []).getD s []).getD t 0)).sum).sum

/-- Cell/pattern parameters shared by both network classes: time step `dt`,
output threshold `theta`, hidden escape-rate activation `act`, and the two
lookup tables (refractory and PSP kernels). -/
structure NetParams where
  dt : ℚ
  theta : ℚ
  act : ℚ → ℚ
  lutRefr : List ℚ
  lutPsp : List ℚ

/-- One hidden layer of `MultilayerSRM.simulate`: per post-neuron `i`, run the
spike-discovery loop on the dotted potentials, with stochastic candidates from
the batch uniform samples `smp` (row-major `(n, numIter)`), accumulating the
layer's outgoing PSP rows.  Returns (evoked PSP rows, fire-index trains). -/
def runHiddenLayer (net : NetParams) (numIter n : ℕ) (w : ℕ → ℕ → ℚ)
    (psps : List (List ℚ)) (smp : ℕ → ℚ) : List (List ℚ) × List (List ℕ) :=
  let results := (List.range n).map fun i =>
    spikeLoop (hiddenCand net.dt net.act numIter fun t => smp (i * numIter + t))
      (kerOf net.lutRefr) (fun f o => addFrom o f (kerOf net.lutPsp)) false
      (numIter + 1) (weightedSum (w i) psps numIter) (List.replicate numIter 0) []
  (results.map fun r => r.2.1, results.map fun r => r.2.2)

/-- Output layer of `MultilayerSRM.simulate`: deterministic threshold-crossing
candidates, refractory feedback, optional `latency` early exit; the evoked PSP
row is still accumulated (and discarded, as there is no later layer). -/
def runOutputLayer (net : NetParams) (numIter n : ℕ) (w : ℕ → ℕ → ℚ)
    (psps : List (List ℚ)) (latency : Bool) : List (List ℕ) :=
  (List.range n).map fun i =>
    (spikeLoop (outputCand net.theta numIter) (kerOf net.lutRefr)
      (fun f o => addFrom o f (kerOf net.lutPsp)) latency
      (numIter + 1) (weightedSum (w i) psps numIter) (List.replicate numIter 0) []).2.2

/-- Layer recursion of `MultilayerSRM.simulate`.  `layers` pairs each
post-layer size `sizes[l+1]` with its weight matrix `self.w[l]`; the last entry
is the output layer, all earlier entries are hidden layers.  Each hidden layer
first draws its full `(n, numIter)` batch of uniform samples, then discovers
spikes neuron by neuron; the output layer draws nothing. -/
def runLayers (net : NetParams) (numIter : ℕ) :
    List (ℕ × (ℕ → ℕ → ℚ)) → List (List ℚ) → RNG → Bool →
    List (List (List ℕ)) × RNG
  | [], _, rng, _ => ([], rng)
  | [(n, w)], psps, rng, latency => ([runOutputLayer net numIter n w psps latency], rng)
  | (n, w) :: l2 :: rest, psps, rng, latency =>
    let dr := rng.draw (n * numIter)
    let hl := runHiddenLayer net numIter n w psps dr.1
    let rec' := runLayers net numIter (l2 :: rest) hl.1 dr.2 latency
    (hl.2 :: rec'.1, rec'.2)

/-- `MultilayerSRM.simulate` on a dense stimulus: asserts
`num_iter == len(self.lut['psp'])`, then runs the layers and converts fire
indices to spike times `fire_idx * self.dt`.  Returns the per-layer spike
trains (layers `l > 0`) and the final generator state. -/
def simulate (net : NetParams) (layers : List (ℕ × (ℕ → ℕ → ℚ)))
    (stim : List (List ℚ)) (rng : RNG) (latency : Bool) :
    Except String (List (List (List ℚ)) × RNG) :=
  let numIter := (stim.headD []).length
  if numIter = net.lutPsp.length then
    let r := runLayers net numIter layers stim rng latency
    .ok (r.1.map fun layer => layer.map fun tr => tr.map fun f : ℕ => (f : ℚ) * net.dt, r.2)
  else .error "AssertionError: num_iter == len(lut)"

/-- Spike trains of a `simulate` call (empty on a precondition violation). -/
def simTrains (net : NetParams) (layers : List (ℕ × (ℕ → ℕ → ℚ)))
    (stim : List (List ℚ)) (rng : RNG) (latency : Bool) : List (List (List ℚ)) :=
  match simulate net layers stim rng latency with
  | .ok r => r.1
  | .error _ => []

/-- Final generator state of a simulation call; an aborted call (a Python
exception) leaves the generator untouched. -/
def finalRng (e : Except String (List (List (List ℚ)) × RNG)) (r0 : RNG) : RNG :=
  match e with
  | .ok r => r.2
  | .error _ => r0

/-- Stimulus expansion of `MultilayerSRMSub.simulate`:
`psps[:, i, delay:] = psp_inputs[:, :-delay]` for each input-layer delay.  For
`delay = 0` and a non-empty pattern the right-hand side `[:-0]` is the empty
slice, so numpy raises a broadcast `ValueError`; otherwise each input row is
shifted right by its delay (zero-padded, truncated at the pattern end). -/
def expandStim (stim : List (List ℚ)) (delays0 : List ℕ) (numIter : ℕ) :
    Except String (List (List (List ℚ))) :=
  if delays0.any fun d => decide (d = 0 ∧ numIter ≠ 0) then
    .error "ValueError: could not broadcast input array"
  else
    .ok <| stim.map fun row => delays0.map fun d =>
      (List.range numIter).map fun t => if d ≤ t then row.getD (t - d) 0 else 0

/-- Delayed PSP emission of a hidden neuron in `MultilayerSRMSub.simulate`: for
each subconnection `j` with delay `d`, write the PSP kernel from
`fire_idx + d` on, skipping subconnections whose start index is past the
pattern end. -/
def emitSub (delaysNext : List ℕ) (pspk : ℕ → ℚ) (f : ℕ) (out : List (List ℚ)) :
    List (List ℚ) :=
  (out.zip delaysNext).map fun vd => addFromGuarded vd.1 (f + vd.2) pspk

/-- One hidden layer of `MultilayerSRMSub.simulate`: tensordot potentials,
batch uniform samples, per-neuron spike discovery with delayed per-sub
emission into the next layer's `(numSubsNext, numIter)` PSP block. -/
def runHiddenLayerSub (net : NetParams) (numIter n numSubsNext : ℕ)
    (w : ℕ → ℕ → ℕ → ℚ) (delaysNext : List ℕ) (psps : List (List (List ℚ)))
    (smp : ℕ → ℚ) : List (List (List ℚ)) × List (List ℕ) :=
  let results := (List.range n).map fun i =>
    spikeLoop (hiddenCand net.dt net.act numIter fun t => smp (i * numIter + t))
      (kerOf net.lutRefr) (emitSub delaysNext (kerOf net.lutPsp)) false
      (numIter + 1) (weightedSumSub (w i) psps numIter)
      (List.replicate numSubsNext (List.replicate numIter 0)) []
  (results.map fun r => r.2.1, results.map fun r => r.2.2)

/-- Output layer of `MultilayerSRMSub.simulate`: threshold crossings with
refractory feedback and no PSP emission (there is no later layer). -/
def runOutputLayerSub (net : NetParams) (numIter n : ℕ) (w : ℕ → ℕ → ℕ → ℚ)
    (psps : List (List (List ℚ))) (latency : Bool) : List (List ℕ) :=
  (List.range n).map fun i =>
    (spikeLoop (outputCand net.theta numIter) (kerOf net.lutRefr)
      (fun _ o => o) latency
      (numIter + 1) (weightedSumSub (w i) psps numIter) () []).2.2

/-- Layer recursion of `MultilayerSRMSub.simulate`.  Each entry of `layers`
carries the post-layer size `sizes[l+1]`, the weight tensor `self.w[l]`, and
the incoming subconnection count `self.num_subs[l]` and delays
`self.delays[l]`; a hidden layer's emission uses the *next* entry's incoming
subconnection data. -/
def runLayersSub (net : NetParams) (numIter : ℕ) :
    List (ℕ × (ℕ → ℕ → ℕ → ℚ) × ℕ × List ℕ) → List (List (List ℚ)) → RNG → Bool →
    List (List (List ℕ)) × RNG
  | [], _, rng, _ => ([], rng)
  | [(n, w, _, _)], psps, rng, latency =>
    ([runOutputLayerSub net numIter n w psps latency], rng)
  | (n, w, _, _) :: (n2, w2, ns2, ds2) :: rest, psps, rng, latency =>
    let dr := rng.draw (n * numIter)
    let hl := runHiddenLayerSub net numIter n ns2 w ds2 psps dr.1
    let rec' := runLayersSub net numIter ((n2, w2, ns2, ds2) :: rest) hl.1 dr.2 latency
    (hl.2 :: rec'.1, rec'.2)

/-- `MultilayerSRMSub.simulate` on a dense stimulus: asserts the lookup-table
precondition, expands the stimulus across the input-layer subconnection
delays, runs the layers and converts fire indices to spike times. -/
def simulateSub (net : NetParams) (delays0 : List ℕ)
    (layers : List (ℕ × (ℕ → ℕ → ℕ → ℚ) × ℕ × List ℕ))
    (stim : List (List ℚ)) (rng : RNG) (latency : Bool) :
    Except String (List (List (List ℚ)) × RNG) :=
  let numIter := (stim.headD []).length
  if numIter = net.lutPsp.length then
    match expandStim stim delays0 numIter with
    | .error e => .error e
    | .ok psps0 =>
      let r := runLayersSub net numIter layers psps0 rng latency
      .ok (r.1.map fun layer => layer.map fun tr => tr.map fun f : ℕ => (f : ℚ) * net.dt, r.2)
  else .error "AssertionError: num_iter == len(lut)"

/-- Spike trains of a `simulateSub` call (empty on a precondition violation). -/
def simTrainsSub (net : NetParams) (delays0 : List ℕ)
    (layers : List (ℕ × (ℕ → ℕ → ℕ → ℚ) × ℕ × List ℕ))
    (stim : List (List ℚ)) (rng : RNG) (latency : Bool) : List (List (List ℚ)) :=
  match simulateSub net delays0 layers stim rng latency with
  | .ok r => r.1
  | .error _ => []

/-- Nearest-neighbour exponential learning window `EXPWindow.causal`
(`learnwindow.py`): walk the post-spikes in order; for each, take the
remaining pre-spikes with `pre_spikes <= t_post`, pair with the last of them
(trace `exp(-(t_post - pre_last[-1]) / tau_m)`, with `numpy.exp` as the
parameter `expf`), then discard *all* masked pre-spikes; trace `0` when none
qualifies.  The `delays` parameter of the Python signature is absent here
because the body never reads it. -/
def causalEXP (expf : ℚ → ℚ) (tauM : ℚ) : List ℚ → List ℚ → List ℚ
  | [], _ => []
  | tpost :: rest, pres =>
    if pres = [] then 0 :: causalEXP expf tauM rest pres
    else
      if (pres.filter fun s => decide (s ≤ tpost)) = [] then
        0 :: causalEXP expf tauM rest pres
      else
        expf (-(tpost - (pres.filter fun s => decide (s ≤ tpost)).getLastD 0) / tauM) ::
          causalEXP expf tauM rest (pres.filter fun s => !decide (s ≤ tpost))

/-- The Python call `EXPWindow.causal(post_spikes, pre_spikes, delays)`:
whatever `delays` is passed, the body runs to completion and returns the
undelayed traces — no `NotImplementedError` is raised (unlike the abstract
`LearnWindow.causal`, which raises). -/
def causalEXPCall (expf : ℚ → ℚ) (tauM : ℚ) (posts pres : List ℚ)
    (delays : Option (List ℚ)) : Except String (List ℚ) :=
  match delays with
  | _ => .ok (causalEXP expf tauM posts pres)

/-- The abstract base method `LearnWindow.causal`, which raises
`NotImplementedError` when invoked. -/
def learnWindowCausalBase : Except String (List ℚ) :=
  .error "NotImplementedError"

/-- Maximum element of a rational list, `none` for the empty list. -/
def maxQ? : List ℚ → Option ℚ
  | [] => none
  | x :: xs =>
    match maxQ? xs with
    | none => some x
    | some m => some (max x m)

/-- Specification-side nearest-neighbour window, written from the amended
claim: each post-spike pairs with the most recent (maximum) remaining
pre-spike at or before it, yielding `expf (-(t_post - t_pre) / tau_m)` and `0`
when none remains; accepting a post-spike consumes every remaining pre-spike
at or before it. -/
def nnSpecTrace (expf : ℚ → ℚ) (tauM : ℚ) : List ℚ → List ℚ → List ℚ
  | [], _ => []
  | tpost :: rest, pres =>
    match maxQ? (pres.filter fun s => decide (s ≤ tpost)) with
    | none => 0 :: nnSpecTrace expf tauM rest pres
    | some p =>
      expf (-(tpost - p) / tauM) ::
        nnSpecTrace expf tauM rest (pres.filter fun s => decide (tpost < s))

/-- Modelled from the spec: `np.linspace(low, high, num)` as used by the
`'lin'` delay distribution of `MultilayerSRMSub.__init__` (the `numpy`
function is external to the repository). -/
def linspaceQ (low high : ℚ) (num : ℕ) : List ℚ :=
  if num = 0 then []
  else if num = 1 then [low]
  else (List.range num).map fun i => low + (high - low) * i / (num - 1)

/-- Modelled from the spec: `self.times2steps` (defined in the base-class file,
which is not part of the sources) converts delay times to whole simulation
steps at resolution `dt`. -/
def times2steps (dt t : ℚ) : ℕ :=
  (round (t / dt)).toNat

/-- `MultilayerSRMSub.__init__` entry: the very first statement is
`assert max_delay > 1.`; only if it passes is any state built (the delay
values, linearly spaced over `[1, max_delay]` per layer, modelled from the
spec since the base-class plumbing is outside the sources). -/
def multilayerSRMSubInit (numSubs : List ℕ) (maxDelay dt : ℚ) :
    Except String (List (List ℕ)) :=
  if 1 < maxDelay then
    .ok (numSubs.map fun ns => (linspaceQ 1 maxDelay ns).map (times2steps dt))
  else .error "AssertionError: max_delay > 1."

/-- Loop invariant of the spike-discovery loop: the accepted fire indices are
strictly increasing, and (when a spike exists) the number of candidates of the
current trace that lie strictly before the last accepted index is exactly the
number of earlier spikes — those candidates are the stale ones skipped by
index, not value. -/
def LoopInv (cand : List ℚ → List ℕ) (u : List ℚ) (train : List ℕ) : Prop :=
  train.Pairwise (· < ·) ∧
  ∀ f0, train.getLast? = some f0 →
    ((cand u).filter fun t => decide (t < f0)).length + 1 = train.length

/-- Total number of post-neurons across the hidden layers (every layer entry
except the last): this, times `numIter`, is the number of uniform samples a
`simulate` call consumes. -/
def hiddenDrawCount : List (ℕ × (ℕ → ℕ → ℚ)) → ℕ
  | [] => 0
  | [_] => 0
  | (n, _) :: l2 :: rest => n + hiddenDrawCount (l2 :: rest)

/-- Subconnection-variant analogue of `hiddenDrawCount`. -/
def hiddenDrawCountSub : List (ℕ × (ℕ → ℕ → ℕ → ℚ) × ℕ × List ℕ) → ℕ
  | [] => 0
  | [_] => 0
  | (n, _) :: l2 :: rest => n + hiddenDrawCountSub (l2 :: rest)

theorem length_addFromAux (ker : ℕ → ℚ) (v : List ℚ) (f t0 : ℕ) :
    (addFromAux ker v f t0).length = v.length := by
  induction v generalizing t0 with
  | nil => rfl
  | cons x xs ih => simp [addFromAux, ih]

theorem length_addFrom (v : List ℚ) (f : ℕ) (ker : ℕ → ℚ) :
    (addFrom v f ker).length = v.length :=
  length_addFromAux ker v f 0

theorem getD_addFromAux (ker : ℕ → ℚ) (v : List ℚ) (f t0 t : ℕ) :
    (addFromAux ker v f t0).getD t 0 =
      if t < v.length then
        (if f ≤ t0 + t then v.getD t 0 + ker (t0 + t - f) else v.getD t 0)
      else 0 := by
  induction v generalizing t0 t with
  | nil => simp [addFromAux]
  | cons x xs ih =>
    cases t with
    | zero => simp [addFromAux]
    | succ t =>
      have harith : t0 + 1 + t = t0 + (t + 1) := by omega
      simp only [addFromAux, List.getD_cons_succ, List.length_cons]
      rw [ih t0.succ t, harith]
      simp [Nat.succ_lt_succ_iff]

theorem getD_addFrom_lt (v : List ℚ) (f : ℕ) (ker : ℕ → ℚ) (t : ℕ) (ht : t < f) :
    (addFrom v f ker).getD t 0 = v.getD t 0 := by
  unfold addFrom
  rw [getD_addFromAux]
  by_cases h : t < v.length
  · rw [if_pos h, if_neg (by omega : ¬ f ≤ 0 + t)]
  · rw [if_neg h, List.getD_eq_default _ _ (Nat.le_of_not_lt h)]

theorem getD_addFrom_ge (v : List ℚ) (f : ℕ) (ker : ℕ → ℚ) (t : ℕ) (hf : f ≤ t)
    (ht : t < v.length) :
    (addFrom v f ker).getD t 0 = v.getD t 0 + ker (t - f) := by
  unfold addFrom
  rw [getD_addFromAux, if_pos ht, if_pos (by omega : f ≤ 0 + t), Nat.zero_add]

theorem addFromGuarded_noop (v : List ℚ) (start : ℕ) (ker : ℕ → ℚ)
    (h : v.length ≤ start) : addFromGuarded v start ker = v := by
  unfold addFromGuarded
  rw [if_neg (Nat.not_lt.mpr h)]

theorem pairwise_candIdxs (n : ℕ) (p : ℕ → Bool) : (candIdxs n p).Pairwise (· < ·) :=
  (List.pairwise_lt_range n).filter p

theorem length_candIdxs_le (n : ℕ) (p : ℕ → Bool) : (candIdxs n p).length ≤ n := by
  unfold candIdxs
  calc ((List.range n).filter p).length ≤ (List.range n).length :=
        List.length_filter_le _ _
    _ = n := List.length_range n

theorem candIdxs_filter_lt_congr (n : ℕ) (p q : ℕ → Bool) (f : ℕ)
    (h : ∀ t, t < f → p t = q t) :
    (candIdxs n p).filter (fun t => decide (t < f)) =
      (candIdxs n q).filter (fun t => decide (t < f)) := by
  unfold candIdxs
  rw [List.filter_filter, List.filter_filter]
  apply List.filter_congr
  intro a _
  by_cases ha : a < f
  · simp [ha, h a ha]
  · simp [ha]

theorem candIdxs_eq_nil (n : ℕ) (p : ℕ → Bool) (h : ∀ t, t < n → p t = false) :
    candIdxs n p = [] := by
  unfold candIdxs
  apply List.filter_eq_nil_iff.mpr
  intro a ha
  simp [h a (List.mem_range.mp ha)]

theorem sorted_filter_lt_getD (l : List ℕ) (hl : l.Pairwise (· < ·)) (k : ℕ)
    (hk : k < l.length) :
    l.filter (fun t => decide (t < l.getD k 0)) = l.take k := by
  induction l generalizing k with
  | nil => simp at hk
  | cons a tl ih =>
    rcases List.pairwise_cons.mp hl with ⟨ha, htl⟩
    cases k with
    | zero =>
      simp only [List.getD_cons_zero, List.take_zero]
      apply List.filter_eq_nil_iff.mpr
      intro b hb
      rcases List.mem_cons.mp hb with hb | hb
      · simp [hb]
      · simp [Nat.not_lt.mpr (Nat.le_of_lt (ha b hb))]
    | succ k =>
      have hk' : k < tl.length := by simpa using hk
      have hmem : tl.getD k 0 ∈ tl := by
        rw [List.getD_eq_getElem _ _ hk']
        exact List.getElem_mem hk'
      have hlt : a < tl.getD k 0 := ha _ hmem
      simp only [List.getD_cons_succ, List.filter_cons, List.take_succ_cons]
      rw [if_pos (by simpa [List.getD] using hlt), ih htl k hk']

theorem length_filter_lt_getD (l : List ℕ) (hl : l.Pairwise (· < ·)) (k : ℕ)
    (hk : k < l.length) :
    (l.filter (fun t => decide (t < l.getD k 0))).length = k := by
  rw [sorted_filter_lt_getD l hl k hk, List.length_take,
    Nat.min_eq_left (Nat.le_of_lt hk)]

theorem le_getD_of_filter_le (l : List ℕ) (hl : l.Pairwise (· < ·)) (a k : ℕ)
    (hk : k < l.length)
    (hlen : (l.filter (fun t => decide (t < a))).length ≤ k) :
    a ≤ l.getD k 0 := by
  by_contra hcon
  push_neg at hcon
  rw [List.getD_eq_getElem _ _ hk] at hcon
  have hpw := List.pairwise_iff_getElem.mp hl
  have htake : ∀ b ∈ l.take (k + 1), b < a := by
    intro b hb
    obtain ⟨i, hi, hbi⟩ := List.mem_iff_getElem.mp hb
    have hilen : i < l.length := Nat.lt_of_lt_of_le hi (by simp [List.length_take])
    have hik : i ≤ k := by
      have := hi
      simp only [List.length_take] at this
      omega
    rw [List.getElem_take] at hbi
    subst hbi
    rcases Nat.lt_or_ge i k with hlt | hge
    · exact Nat.lt_trans (hpw i k hilen hk hlt) hcon
    · have : i = k := by omega
      subst this
      exact hcon
  have hsplit : l.filter (fun t => decide (t < a)) =
      (l.take (k + 1)).filter (fun t => decide (t < a)) ++
      (l.drop (k + 1)).filter (fun t => decide (t < a)) := by
    rw [← List.filter_append, List.take_append_drop]
  have htk : (l.take (k + 1)).filter (fun t => decide (t < a)) = l.take (k + 1) :=
    List.filter_eq_self.mpr (by intro b hb; simp [htake b hb])
  have hlen2 : (l.take (k + 1)).length = k + 1 := by
    simp [List.length_take]
    omega
  rw [hsplit, List.length_append, htk, hlen2] at hlen
  omega

theorem mem_le_getLast_of_sorted (l : List ℕ) (hl : l.Pairwise (· < ·)) (f0 : ℕ)
    (h : l.getLast? = some f0) : ∀ x ∈ l, x ≤ f0 := by
  induction l with
  | nil => simp
  | cons a tl ih =>
    rcases List.pairwise_cons.mp hl with ⟨ha, htl⟩
    cases tl with
    | nil =>
      simp only [List.getLast?_singleton, Option.some_inj] at h
      subst h
      simp
    | cons b tl2 =>
      rw [List.getLast?_cons_cons] at h
      intro x hx
      rcases List.mem_cons.mp hx with hx | hx
      · subst hx
        have hf0 : f0 ∈ b :: tl2 := by
          have := List.getLast?_eq_getLast (b :: tl2) (by simp)
          rw [this] at h
          rw [← Option.some_inj.mp h]
          exact List.getLast_mem _
        exact Nat.le_of_lt (ha f0 hf0)
      · exact ih htl h x hx

theorem loopInv_nil (cand : List ℚ → List ℕ) (u : List ℚ) : LoopInv cand u [] :=
  ⟨List.Pairwise.nil, by simp⟩

theorem loopInv_step (cand : List ℚ → List ℕ) (refr : ℕ → ℚ)
    (hc : ∀ u, (cand u).Pairwise (· < ·))
    (hstab : ∀ u f, ((cand (addFrom u f refr)).filter fun t => decide (t < f)) =
      ((cand u).filter fun t => decide (t < f)))
    (u : List ℚ) (train : List ℕ) (hInv : LoopInv cand u train)
    (hacc : train.length < (cand u).length) :
    (∀ x ∈ train, x < (cand u).getD train.length 0) ∧
    LoopInv cand (addFrom u ((cand u).getD train.length 0) refr)
      (train ++ [(cand u).getD train.length 0]) := by
  rcases hInv with ⟨hsort, hcount⟩
  have hmem : ∀ x ∈ train, x < (cand u).getD train.length 0 := by
    intro x hx
    have hne : train ≠ [] := by rintro rfl; simp at hx
    obtain ⟨f0, hf0⟩ := Option.ne_none_iff_exists'.mp
      (mt List.getLast?_eq_none_iff.mp hne)
    have hcnt := hcount f0 hf0
    have hk1 : train.length - 1 < (cand u).length := by omega
    have hle : f0 ≤ (cand u).getD (train.length - 1) 0 := by
      apply le_getD_of_filter_le _ (hc u) _ _ hk1
      omega
    have hlt : (cand u).getD (train.length - 1) 0 < (cand u).getD train.length 0 := by
      rw [List.getD_eq_getElem _ _ hk1, List.getD_eq_getElem _ _ hacc]
      exact List.pairwise_iff_getElem.mp (hc u) _ _ hk1 hacc (by omega)
    have hxle : x ≤ f0 := mem_le_getLast_of_sorted train hsort f0 hf0 x hx
    omega
  refine ⟨hmem, ?_, ?_⟩
  · rw [List.pairwise_append]
    refine ⟨hsort, by simp, ?_⟩
    intro x hx y hy
    rw [List.mem_singleton.mp hy]
    exact hmem x hx
  · intro f0 hf0
    rw [List.getLast?_concat] at hf0
    rw [← Option.some_inj.mp hf0]
    rw [hstab u ((cand u).getD train.length 0)]
    rw [length_filter_lt_getD _ (hc u) _ hacc]
    simp

theorem spikeLoop_train_sorted {α : Type} (cand : List ℚ → List ℕ) (refr : ℕ → ℚ)
    (emit : ℕ → α → α) (latency : Bool)
    (hc : ∀ u, (cand u).Pairwise (· < ·))
    (hstab : ∀ u f, ((cand (addFrom u f refr)).filter fun t => decide (t < f)) =
      ((cand u).filter fun t => decide (t < f))) :
    ∀ fuel u out train, LoopInv cand u train →
      ((spikeLoop cand refr emit latency fuel u out train).2.2).Pairwise (· < ·) := by
  intro fuel
  induction fuel with
  | zero => intro u out train h; exact h.1
  | succ fuel ih =>
    intro u out train hInv
    rw [spikeLoop]
    by_cases hacc : train.length < (cand u).length
    · obtain ⟨hmem, hInv'⟩ := loopInv_step cand refr hc hstab u train hInv hacc
      cases latency with
      | true => simp only [hacc, if_pos, if_true]; exact hInv'.1
      | false => simp only [hacc, if_pos, if_false]; exact ih _ _ _ hInv'
    · simp only [if_neg hacc]; exact hInv.1

theorem hiddenCand_stab (dt : ℚ) (act : ℚ → ℚ) (numIter : ℕ) (smp : ℕ → ℚ)
    (refr : ℕ → ℚ) (u : List ℚ) (f : ℕ) :
    ((hiddenCand dt act numIter smp (addFrom u f refr)).filter fun t => decide (t < f)) =
      ((hiddenCand dt act numIter smp u).filter fun t => decide (t < f)) := by
  unfold hiddenCand
  apply candIdxs_filter_lt_congr
  intro t ht
  rw [getD_addFrom_lt u f _ t ht]

theorem outputCand_stab (theta : ℚ) (numIter : ℕ) (refr : ℕ → ℚ) (u : List ℚ) (f : ℕ) :
    ((outputCand theta numIter (addFrom u f refr)).filter fun t => decide (t < f)) =
      ((outputCand theta numIter u).filter fun t => decide (t < f)) := by
  unfold outputCand
  apply candIdxs_filter_lt_congr
  intro t ht
  rw [getD_addFrom_lt u f _ t ht]

theorem runHiddenLayer_trains_sorted (net : NetParams) (numIter n : ℕ) (w : ℕ → ℕ → ℚ)
    (psps : List (List ℚ)) (smp : ℕ → ℚ) :
    ∀ tr ∈ (runHiddenLayer net numIter n w psps smp).2, tr.Pairwise (· < ·) := by
  intro tr htr
  simp only [runHiddenLayer, List.mem_map, List.mem_range] at htr
  obtain ⟨r, ⟨i, hi, hr⟩, htr⟩ := htr
  subst hr
  subst htr
  refine spikeLoop_train_sorted _ _ _ _ ?_ ?_ _ _ _ _ (loopInv_nil _ _)
  · exact fun u => pairwise_candIdxs _ _
  · exact fun u f => hiddenCand_stab _ _ _ _ _ u f

theorem runOutputLayer_trains_sorted (net : NetParams) (numIter n : ℕ) (w : ℕ → ℕ → ℚ)
    (psps : List (List ℚ)) (latency : Bool) :
    ∀ tr ∈ runOutputLayer net numIter n w psps latency, tr.Pairwise (· < ·) := by
  intro tr htr
  simp only [runOutputLayer, List.mem_map, List.mem_range] at htr
  obtain ⟨i, hi, htr⟩ := htr
  subst htr
  refine spikeLoop_train_sorted _ _ _ _ ?_ ?_ _ _ _ _ (loopInv_nil _ _)
  · exact fun u => pairwise_candIdxs _ _
  · exact fun u f => outputCand_stab _ _ _ u f

theorem runHiddenLayerSub_trains_sorted (net : NetParams) (numIter n ns2 : ℕ)
    (w : ℕ → ℕ → ℕ → ℚ) (ds2 : List ℕ) (psps : List (List (List ℚ))) (smp : ℕ → ℚ) :
    ∀ tr ∈ (runHiddenLayerSub net numIter n ns2 w ds2 psps smp).2, tr.Pairwise (· < ·) := by
  intro tr htr
  simp only [runHiddenLayerSub, List.mem_map, List.mem_range] at htr
  obtain ⟨r, ⟨i, hi, hr⟩, htr⟩ := htr
  subst hr
  subst htr
  refine spikeLoop_train_sorted _ _ _ _ ?_ ?_ _ _ _ _ (loopInv_nil _ _)
  · exact fun u => pairwise_candIdxs _ _
  · exact fun u f => hiddenCand_stab _ _ _ _ _ u f

theorem runOutputLayerSub_trains_sorted (net : NetParams) (numIter n : ℕ)
    (w : ℕ → ℕ → ℕ → ℚ) (psps : List (List (List ℚ))) (latency : Bool) :
    ∀ tr ∈ runOutputLayerSub net numIter n w psps latency, tr.Pairwise (· < ·) := by
  intro tr htr
  simp only [runOutputLayerSub, List.mem_map, List.mem_range] at htr
  obtain ⟨i, hi, htr⟩ := htr
  subst htr
  refine spikeLoop_train_sorted _ _ _ _ ?_ ?_ _ _ _ _ (loopInv_nil _ _)
  · exact fun u => pairwise_candIdxs _ _
  · exact fun u f => outputCand_stab _ _ _ u f

theorem runLayers_trains_sorted (net : NetParams) (numIter : ℕ) :
    ∀ (layers : List (ℕ × (ℕ → ℕ → ℚ))) (psps : List (List ℚ)) (rng : RNG)
      (latency : Bool),
      ∀ layerTr ∈ (runLayers net numIter layers psps rng latency).1,
        ∀ tr ∈ layerTr, tr.Pairwise (· < ·) := by
  intro layers
  induction layers with
  | nil => intro psps rng latency layerTr h; simp [runLayers] at h
  | cons hd tlayers ih =>
    intro psps rng latency layerTr hmem tr htr
    obtain ⟨n, w⟩ := hd
    cases tlayers with
    | nil =>
      simp only [runLayers, List.mem_singleton] at hmem
      subst hmem
      exact runOutputLayer_trains_sorted net numIter n w psps latency tr htr
    | cons hd2 t2 =>
      simp only [runLayers] at hmem
      rcases List.mem_cons.mp hmem with h | h
      · subst h
        exact runHiddenLayer_trains_sorted net numIter n w psps _ tr htr
      · exact ih _ _ latency layerTr h tr htr

theorem runLayersSub_trains_sorted (net : NetParams) (numIter : ℕ) :
    ∀ (layers : List (ℕ × (ℕ → ℕ → ℕ → ℚ) × ℕ × List ℕ)) (psps : List (List (List ℚ)))
      (rng : RNG) (latency : Bool),
      ∀ layerTr ∈ (runLayersSub net numIter layers psps rng latency).1,
        ∀ tr ∈ layerTr, tr.Pairwise (· < ·) := by
  intro layers
  induction layers with
  | nil => intro psps rng latency layerTr h; simp [runLayersSub] at h
  | cons hd tlayers ih =>
    intro psps rng latency layerTr hmem tr htr
    obtain ⟨n, w, ns, ds⟩ := hd
    cases tlayers with
    | nil =>
      simp only [runLayersSub, List.mem_singleton] at hmem
      subst hmem
      exact runOutputLayerSub_trains_sorted net numIter n w psps latency tr htr
    | cons hd2 t2 =>
      obtain ⟨n2, w2, ns2, ds2⟩ := hd2
      simp only [runLayersSub] at hmem
      rcases List.mem_cons.mp hmem with h | h
      · subst h
        exact runHiddenLayerSub_trains_sorted net numIter n ns2 w ds2 psps _ tr htr
      · exact ih _ _ latency layerTr h tr htr

theorem pairwise_map_times (dt : ℚ) (hdt : 0 < dt) (tr : List ℕ)
    (h : tr.Pairwise (· < ·)) :
    (tr.map fun f : ℕ => (f : ℚ) * dt).Pairwise (· < ·) := by
  induction tr with
  | nil => simp
  | cons a tl ih =>
    rcases List.pairwise_cons.mp h with ⟨ha, htl⟩
    rw [List.map_cons]
    refine List.pairwise_cons.mpr ⟨?_, ih htl⟩
    intro b hb
    obtain ⟨c, hc, rfl⟩ := List.mem_map.mp hb
    have hcast : (a : ℚ) < c := by exact_mod_cast ha c hc
    exact mul_lt_mul_of_pos_right hcast hdt

/-- Unfolding helper: a `simulate` call either hits the lookup-table assertion
(no trains) or returns the layer-run trains converted to times. -/
theorem simTrains_eq (net : NetParams) (layers : List (ℕ × (ℕ → ℕ → ℚ)))
    (stim : List (List ℚ)) (rng : RNG) (lat : Bool) :
    simTrains net layers stim rng lat = [] ∨
    simTrains net layers stim rng lat =
      (runLayers net (stim.headD []).length layers stim rng lat).1.map
        (fun layer => layer.map fun tr => tr.map fun f : ℕ => (f : ℚ) * net.dt) := by
  unfold simTrains simulate
  by_cases h : (stim.headD []).length = net.lutPsp.length
  · right
    simp only [if_pos h]
  · left
    simp only [if_neg h]

/-- Unfolding helper for `simulateSub`: either an assertion/broadcast error
(no trains) or the layer-run trains on some expanded stimulus. -/
theorem simTrainsSub_eq (net : NetParams) (delays0 : List ℕ)
    (layers : List (ℕ × (ℕ → ℕ → ℕ → ℚ) × ℕ × List ℕ))
    (stim : List (List ℚ)) (rng : RNG) (lat : Bool) :
    simTrainsSub net delays0 layers stim rng lat = [] ∨
    ∃ psps0, simTrainsSub net delays0 layers stim rng lat =
      (runLayersSub net (stim.headD []).length layers psps0 rng lat).1.map
        (fun layer => layer.map fun tr => tr.map fun f : ℕ => (f : ℚ) * net.dt) := by
  unfold simTrainsSub simulateSub
  by_cases h : (stim.headD []).length = net.lutPsp.length
  · simp only [if_pos h]
    cases hexp : expandStim stim delays0 (stim.headD []).length with
    | error e => left; rfl
    | ok psps0 => right; exact ⟨psps0, rfl⟩
  · left
    simp only [if_neg h]

/-- C1: for every valid stimulus, every spike train returned by the iterative
engine `simulate` — hidden and output layers, plain (`MultilayerSRM`) and
subconnection (`MultilayerSRMSub`) variants alike — is a strictly increasing
sequence of spike times: each accepted `fire_idx` strictly exceeds the
previously accepted one for that neuron, because the refractory kernel is only
ever added from `fire_idx` onward (so earlier candidates are unchanged) and
candidates before already-counted spikes are skipped by index. -/
theorem simulate_spike_trains_strictly_increasing
    (netP netS : NetParams) (layersP : List (ℕ × (ℕ → ℕ → ℚ)))
    (delays0 : List ℕ) (layersS : List (ℕ × (ℕ → ℕ → ℕ → ℚ) × ℕ × List ℕ))
    (stimP stimS : List (List ℚ)) (rngP rngS : RNG) (latP latS : Bool)
    (hdtP : 0 < netP.dt) (hdtS : 0 < netS.dt) :
    (∀ layerTr ∈ simTrains netP layersP stimP rngP latP, ∀ tr ∈ layerTr,
      tr.Pairwise (· < ·)) ∧
    (∀ layerTr ∈ simTrainsSub netS delays0 layersS stimS rngS latS, ∀ tr ∈ layerTr,
      tr.Pairwise (· < ·)) := by
  constructor
  · intro layerTr hmem tr htr
    rcases simTrains_eq netP layersP stimP rngP latP with h | h
    · rw [h] at hmem
      simp at hmem
    · rw [h] at hmem
      obtain ⟨layer0, hlayer0, rfl⟩ := List.mem_map.mp hmem
      obtain ⟨tr0, htr0, rfl⟩ := List.mem_map.mp htr
      exact pairwise_map_times netP.dt hdtP tr0
        (runLayers_trains_sorted netP _ layersP stimP rngP latP layer0 hlayer0 tr0 htr0)
  · intro layerTr hmem tr htr
    rcases simTrainsSub_eq netS delays0 layersS stimS rngS latS with h | ⟨psps0, h⟩
    · rw [h] at hmem
      simp at hmem
    · rw [h] at hmem
      obtain ⟨layer0, hlayer0, rfl⟩ := List.mem_map.mp hmem
      obtain ⟨tr0, htr0, rfl⟩ := List.mem_map.mp htr
      exact pairwise_map_times netS.dt hdtS tr0
        (runLayersSub_trains_sorted netS _ layersS psps0 rngS latS layer0 hlayer0 tr0 htr0)

/-- Witness for C1 at a concrete input: a 1-input/1-output plain network and a
1-input/1-output subconnection network with delay 1 on a one-step stimulus. -/
theorem simulate_spike_trains_strictly_increasing_witness :
    (0 : ℚ) < 1 ∧ ([0] : List ℚ).Pairwise (· < ·) := by
  have h := simulate_spike_trains_strictly_increasing
    ⟨1, 0, fun _ => 0, [-1], [1]⟩ ⟨1, 0, fun _ => 0, [-1], [1]⟩
    [(1, fun _ _ => 1)] [1] [(1, fun _ _ _ => 1, 1, [1])]
    [[1]] [[1]] ⟨fun _ => 1, 0⟩ ⟨fun _ => 1, 0⟩ false false
    (by decide) (by decide)
  exact ⟨by decide, h.1 [[0]] (by with_unfolding_all decide) [0] (by decide)⟩

/-- C5: a `simulate` call is accepted precisely when the stimulus step count
equals the lookup-table length (`assert num_iter == len(self.lut['psp'])`):
equality succeeds, a count one greater (or any other mismatch) fails
immediately with a precondition violation and no partial result, in both the
plain and the subconnection variant (the latter assuming the constructed
delays are nonzero, as guaranteed by the delay-range invariant). -/
theorem simulate_accepted_iff_table_length
    (netP : NetParams) (layersP : List (ℕ × (ℕ → ℕ → ℚ)))
    (stimP : List (List ℚ)) (rngP : RNG) (latP : Bool)
    (netS : NetParams) (delays0 : List ℕ)
    (layersS : List (ℕ × (ℕ → ℕ → ℕ → ℚ) × ℕ × List ℕ))
    (stimS : List (List ℚ)) (rngS : RNG) (latS : Bool)
    (hd : ∀ d ∈ delays0, d ≠ 0) :
    ((∃ r, simulate netP layersP stimP rngP latP = .ok r) ↔
      (stimP.headD []).length = netP.lutPsp.length) ∧
    ((∃ r, simulateSub netS delays0 layersS stimS rngS latS = .ok r) ↔
      (stimS.headD []).length = netS.lutPsp.length) := by
  constructor
  · unfold simulate
    by_cases h : (stimP.headD []).length = netP.lutPsp.length
    · rw [if_pos h]
      exact ⟨fun _ => h, fun _ => ⟨_, rfl⟩⟩
    · rw [if_neg h]
      exact ⟨fun ⟨r, hr⟩ => absurd hr (by simp), fun hc => absurd hc h⟩
  · unfold simulateSub
    by_cases h : (stimS.headD []).length = netS.lutPsp.length
    · rw [if_pos h]
      have hexp : expandStim stimS delays0 (stimS.headD []).length =
          .ok (stimS.map fun row => delays0.map fun d =>
            (List.range ((stimS.headD []).length)).map fun t =>
              if d ≤ t then row.getD (t - d) 0 else 0) := by
        unfold expandStim
        rw [if_neg]
        simp only [List.any_eq_true, not_exists, not_and]
        rintro x hx
        simp only [decide_eq_true_eq, not_and]
        intro hx0
        exact absurd hx0 (hd x hx)
      rw [hexp]
      exact ⟨fun _ => h, fun _ => ⟨_, rfl⟩⟩
    · rw [if_neg h]
      exact ⟨fun ⟨r, hr⟩ => absurd hr (by simp), fun hc => absurd hc h⟩

/-- Witness for C5: a one-step stimulus against length-1 lookup tables is
accepted by both variants (and the theorem's iff makes any mismatched length,
in particular one greater, fail). -/
theorem simulate_accepted_iff_table_length_witness :
    (∃ r, simulate ⟨1, 0, fun _ => 0, [0], [0]⟩ [] [[1]] ⟨fun _ => 0, 0⟩ false = .ok r) ∧
    (∃ r, simulateSub ⟨1, 0, fun _ => 0, [0], [0]⟩ [1] [] [[1]] ⟨fun _ => 0, 0⟩ false
      = .ok r) := by
  have h := simulate_accepted_iff_table_length
    ⟨1, 0, fun _ => 0, [0], [0]⟩ [] [[1]] ⟨fun _ => 0, 0⟩ false
    ⟨1, 0, fun _ => 0, [0], [0]⟩ [1] [] [[1]] ⟨fun _ => 0, 0⟩ false
    (by decide)
  exact ⟨h.1.mpr rfl, h.2.mpr rfl⟩

/-- C10: `MultilayerSRMSub.__init__` begins with `assert max_delay > 1.`, so
construction with `max_delay ≤ 1` fails before any state is built, for every
other combination of arguments, and every `max_delay > 1` proceeds past this
check (the spec states no such lower bound on the delay range). -/
theorem multilayerSRMSubInit_max_delay_check (numSubs : List ℕ) (maxDelay dt : ℚ) :
    (maxDelay ≤ 1 → multilayerSRMSubInit numSubs maxDelay dt =
      .error "AssertionError: max_delay > 1.") ∧
    (1 < maxDelay → ∃ ds, multilayerSRMSubInit numSubs maxDelay dt = .ok ds) := by
  constructor
  · intro h
    unfold multilayerSRMSubInit
    rw [if_neg (not_lt.mpr h)]
  · intro h
    unfold multilayerSRMSubInit
    rw [if_pos h]
    exact ⟨_, rfl⟩

/-- Witness for C10: `max_delay = 1` is rejected by the constructor assert and
`max_delay = 2` passes the check. -/
theorem multilayerSRMSubInit_max_delay_check_witness :
    multilayerSRMSubInit [2] 1 1 = .error "AssertionError: max_delay > 1." ∧
    ∃ ds, multilayerSRMSubInit [2] 2 1 = .ok ds := by
  exact ⟨(multilayerSRMSubInit_max_delay_check [2] 1 1).1 (by decide),
    (multilayerSRMSubInit_max_delay_check [2] 2 1).2 (by decide)⟩

/-- C6: a kernel addition at an accepted spike index `fire_idx` writes only
positions `fire_idx` through `num_iter - 1`: the trace length is preserved (no
out-of-bounds write), positions before `fire_idx` are untouched, position
`fire_idx + k` receives the k-th kernel entry — i.e. the kernel is truncated
to `min(kernel_length, num_iter - fire_idx)` — and in the subconnection
variant a delayed contribution whose start index `fire_idx + delay` is at or
past `num_iter` is a silent no-op, never an error. -/
theorem kernel_addition_truncated_no_oob (v : List ℚ) (f : ℕ) (ker : ℕ → ℚ)
    (t d : ℕ) :
    (addFrom v f ker).length = v.length ∧
    (t < f → (addFrom v f ker).getD t 0 = v.getD t 0) ∧
    (f ≤ t → t < v.length → (addFrom v f ker).getD t 0 = v.getD t 0 + ker (t - f)) ∧
    (v.length ≤ f + d → addFromGuarded v (f + d) ker = v) :=
  ⟨length_addFrom v f ker, fun ht => getD_addFrom_lt v f ker t ht,
    fun hf ht => getD_addFrom_ge v f ker t hf ht,
    fun h => addFromGuarded_noop v (f + d) ker h⟩

/-- Witness for C6 on a length-2 trace with `fire_idx = 1`: length preserved,
position 0 untouched, position 1 incremented by the kernel head, and a delayed
start index at the trace end is a no-op. -/
theorem kernel_addition_truncated_no_oob_witness :
    (addFrom [1, 2] 1 (kerOf [5, 6])).length = 2 ∧
    (addFrom [1, 2] 1 (kerOf [5, 6])).getD 0 0 = 1 ∧
    (addFrom [1, 2] 1 (kerOf [5, 6])).getD 1 0 = 2 + 5 ∧
    addFromGuarded [1, 2] 2 (kerOf [5, 6]) = [1, 2] := by
  have h0 := kernel_addition_truncated_no_oob [1, 2] 1 (kerOf [5, 6]) 0 1
  have h1 := kernel_addition_truncated_no_oob [1, 2] 1 (kerOf [5, 6]) 1 1
  exact ⟨h0.1, h0.2.1 (by decide), h1.2.2.1 (by decide) (by decide),
    h1.2.2.2 (by decide)⟩

/-- C4 (code-bug evidence): configured with a single subconnection and delay
value 0, `MultilayerSRMSub.simulate` does not reproduce the plain model — the
stimulus expansion `psps[:, i, delay:] = psp_inputs[:, :-delay]` assigns the
empty slice `[:-0]` and raises a broadcast `ValueError`, while the plain model
on the same stimulus, seed and weights succeeds. -/
theorem subconn_delay_zero_broadcast_error :
    simulateSub ⟨1, 0, fun _ => 0, [-1], [1]⟩ [0] [(1, fun _ _ _ => 1, 1, [0])]
      [[1]] ⟨fun _ => 1, 0⟩ false =
      .error "ValueError: could not broadcast input array" ∧
    ∃ r, simulate ⟨1, 0, fun _ => 0, [-1], [1]⟩ [(1, fun _ _ => 1)]
      [[1]] ⟨fun _ => 1, 0⟩ false = .ok r :=
  ⟨rfl, ⟨_, rfl⟩⟩

/-- C8 (code-bug evidence): calling the exponential window's causal
correlation with a `delays` argument produces a silently computed result that
ignores the delays — identical to the call without delays — instead of the
explicit `NotImplementedError` signal that the abstract `LearnWindow.causal`
raises (the `EXPWindow.causal` body is marked `TODO: Implement delays` but
never reads the argument). -/
theorem causalEXP_delays_silently_ignored :
    causalEXPCall (fun _ => 5) 1 [2] [1] (some [3]) = .ok [5] ∧
    causalEXPCall (fun _ => 5) 1 [2] [1] (some [3]) =
      causalEXPCall (fun _ => 5) 1 [2] [1] none ∧
    learnWindowCausalBase = .error "NotImplementedError" := by
  refine ⟨?_, rfl, rfl⟩
  with_unfolding_all rfl

/-- The generator state returned by the plain layer recursion depends only on
the layer sizes and the pattern length, never on the PSP values or the spikes
discovered: each hidden layer consumes exactly its batch of `n * numIter`
samples up front. -/
theorem runLayers_rng (net : NetParams) (numIter : ℕ) :
    ∀ (layers : List (ℕ × (ℕ → ℕ → ℚ))) (psps : List (List ℚ)) (rng : RNG)
      (lat : Bool),
      (runLayers net numIter layers psps rng lat).2 =
        ⟨rng.stream, rng.pos + numIter * hiddenDrawCount layers⟩ := by
  intro layers
  induction layers with
  | nil =>
    intro psps rng lat
    simp [runLayers, hiddenDrawCount]
  | cons hd tlayers ih =>
    intro psps rng lat
    obtain ⟨n, w⟩ := hd
    cases tlayers with
    | nil => simp [runLayers, hiddenDrawCount]
    | cons hd2 t2 =>
      simp only [runLayers, hiddenDrawCount]
      rw [ih]
      simp only [RNG.draw, RNG.mk.injEq]
      exact ⟨trivial, by ring⟩

/-- Subconnection analogue of `runLayers_rng`. -/
theorem runLayersSub_rng (net : NetParams) (numIter : ℕ) :
    ∀ (layers : List (ℕ × (ℕ → ℕ → ℕ → ℚ) × ℕ × List ℕ))
      (psps : List (List (List ℚ))) (rng : RNG) (lat : Bool),
      (runLayersSub net numIter layers psps rng lat).2 =
        ⟨rng.stream, rng.pos + numIter * hiddenDrawCountSub layers⟩ := by
  intro layers
  induction layers with
  | nil =>
    intro psps rng lat
    simp [runLayersSub, hiddenDrawCountSub]
  | cons hd tlayers ih =>
    intro psps rng lat
    obtain ⟨n, w, ns, ds⟩ := hd
    cases tlayers with
    | nil => simp [runLayersSub, hiddenDrawCountSub]
    | cons hd2 t2 =>
      obtain ⟨n2, w2, ns2, ds2⟩ := hd2
      simp only [runLayersSub, hiddenDrawCountSub]
      rw [ih]
      simp only [RNG.draw, RNG.mk.injEq]
      exact ⟨trivial, by ring⟩

/-- Closed form of the generator state after a plain `simulate` call. -/
theorem simulate_finalRng (net : NetParams) (layers : List (ℕ × (ℕ → ℕ → ℚ)))
    (stim : List (List ℚ)) (rng : RNG) (lat : Bool) :
    finalRng (simulate net layers stim rng lat) rng =
      if (stim.headD []).length = net.lutPsp.length then
        ⟨rng.stream, rng.pos + (stim.headD []).length * hiddenDrawCount layers⟩
      else rng := by
  unfold simulate finalRng
  by_cases h : (stim.headD []).length = net.lutPsp.length
  · rw [if_pos h, if_pos h]
    show (runLayers net (stim.headD []).length layers stim rng lat).2 = _
    rw [runLayers_rng]
  · rw [if_neg h, if_neg h]

/-- Closed form of the generator state after a `simulateSub` call: on either
abort path (assertion or broadcast error) the generator is untouched. -/
theorem simulateSub_finalRng (net : NetParams) (delays0 : List ℕ)
    (layers : List (ℕ × (ℕ → ℕ → ℕ → ℚ) × ℕ × List ℕ))
    (stim : List (List ℚ)) (rng : RNG) (lat : Bool) :
    finalRng (simulateSub net delays0 layers stim rng lat) rng =
      if (stim.headD []).length = net.lutPsp.length ∧
          ¬ (delays0.any fun d => decide (d = 0 ∧ (stim.headD []).length ≠ 0)) = true then
        ⟨rng.stream, rng.pos + (stim.headD []).length * hiddenDrawCountSub layers⟩
      else rng := by
  unfold simulateSub finalRng expandStim
  by_cases h1 : (stim.headD []).length = net.lutPsp.length
  · rw [if_pos h1]
    by_cases h2 : (delays0.any fun d => decide (d = 0 ∧ (stim.headD []).length ≠ 0)) = true
    · rw [if_pos h2, if_neg (by intro hc; exact hc.2 h2)]
    · rw [if_neg h2, if_pos ⟨h1, h2⟩]
      show (runLayersSub net (stim.headD []).length layers _ rng lat).2 = _
      rw [runLayersSub_rng]
  · rw [if_neg h1, if_neg (by intro hc; exact h1 hc.1)]

/-- C9: all uniform samples for a hidden layer are drawn in one
`(layer_size, num_iter)` batch before any per-neuron spike discovery begins,
so the number and order of random draws consumed by a `simulate` call (plain
or subconnection) depend only on the layer sizes and the pattern length, not
on the stimulus values or the spikes discovered: two runs from the same
generator state on same-shape stimuli leave the generator in the same final
state. -/
theorem simulate_rng_final_state_stimulus_independent
    (netP : NetParams) (layersP : List (ℕ × (ℕ → ℕ → ℚ)))
    (stim1 stim2 : List (List ℚ)) (rngP : RNG) (latP : Bool)
    (netS : NetParams) (delays0 : List ℕ)
    (layersS : List (ℕ × (ℕ → ℕ → ℕ → ℚ) × ℕ × List ℕ))
    (stimS1 stimS2 : List (List ℚ)) (rngS : RNG) (latS : Bool)
    (hshape : (stim1.headD []).length = (stim2.headD []).length)
    (hshapeS : (stimS1.headD []).length = (stimS2.headD []).length) :
    finalRng (simulate netP layersP stim1 rngP latP) rngP =
      finalRng (simulate netP layersP stim2 rngP latP) rngP ∧
    finalRng (simulateSub netS delays0 layersS stimS1 rngS latS) rngS =
      finalRng (simulateSub netS delays0 layersS stimS2 rngS latS) rngS := by
  constructor
  · rw [simulate_finalRng, simulate_finalRng, hshape]
  · rw [simulateSub_finalRng, simulateSub_finalRng, hshapeS]

/-- Witness for C9: two different one-step stimuli (same shape) leave the
generator in the same final state, for a network with one hidden layer in
each variant. -/
theorem simulate_rng_final_state_stimulus_independent_witness :
    finalRng (simulate ⟨1, 0, fun _ => 1, [-1], [1]⟩ [(2, fun _ _ => 1), (1, fun _ _ => 1)]
        [[1]] ⟨fun _ => 0, 0⟩ false) ⟨fun _ => 0, 0⟩ =
      finalRng (simulate ⟨1, 0, fun _ => 1, [-1], [1]⟩ [(2, fun _ _ => 1), (1, fun _ _ => 1)]
        [[7]] ⟨fun _ => 0, 0⟩ false) ⟨fun _ => 0, 0⟩ ∧
    finalRng (simulateSub ⟨1, 0, fun _ => 1, [-1], [1]⟩ [1]
        [(2, fun _ _ _ => 1, 1, [1]), (1, fun _ _ _ => 1, 1, [1])]
        [[1]] ⟨fun _ => 0, 0⟩ false) ⟨fun _ => 0, 0⟩ =
      finalRng (simulateSub ⟨1, 0, fun _ => 1, [-1], [1]⟩ [1]
        [(2, fun _ _ _ => 1, 1, [1]), (1, fun _ _ _ => 1, 1, [1])]
        [[7]] ⟨fun _ => 0, 0⟩ false) ⟨fun _ => 0, 0⟩ :=
  simulate_rng_final_state_stimulus_independent
    ⟨1, 0, fun _ => 1, [-1], [1]⟩ [(2, fun _ _ => 1), (1, fun _ _ => 1)]
    [[1]] [[7]] ⟨fun _ => 0, 0⟩ false
    ⟨1, 0, fun _ => 1, [-1], [1]⟩ [1]
    [(2, fun _ _ _ => 1, 1, [1]), (1, fun _ _ _ => 1, 1, [1])]
    [[1]] [[7]] ⟨fun _ => 0, 0⟩ false rfl rfl

/-- The non-latency spike loop only ever appends to the train. -/
theorem spikeLoop_train_extends {α : Type} (cand : List ℚ → List ℕ) (refr : ℕ → ℚ)
    (emit : ℕ → α → α) :
    ∀ fuel (u : List ℚ) (out : α) (train : List ℕ), ∃ s,
      train ++ s = (spikeLoop cand refr emit false fuel u out train).2.2 := by
  intro fuel
  induction fuel with
  | zero => intro u out train; exact ⟨[], List.append_nil train⟩
  | succ fuel ih =>
    intro u out train
    rw [spikeLoop]
    by_cases hacc : train.length < (cand u).length
    · rw [if_pos hacc, if_neg (by decide : ¬ (false = true))]
      obtain ⟨s, hs⟩ := ih (addFrom u ((cand u).getD train.length 0) refr)
        (emit ((cand u).getD train.length 0) out)
        (train ++ [(cand u).getD train.length 0])
      exact ⟨[(cand u).getD train.length 0] ++ s, by rw [← List.append_assoc]; exact hs⟩
    · rw [if_neg hacc]
      exact ⟨[], List.append_nil train⟩

/-- First-spike (`latency`) run of the spike loop from an empty train: at most
one spike, and the result is a prefix of the full run from the same state. -/
theorem spikeLoop_latency_first {α : Type} (cand : List ℚ → List ℕ) (refr : ℕ → ℚ)
    (emit : ℕ → α → α) (fuel : ℕ) (u : List ℚ) (out : α) :
    ((spikeLoop cand refr emit true (fuel + 1) u out []).2.2).length ≤ 1 ∧
    ∃ s, (spikeLoop cand refr emit true (fuel + 1) u out []).2.2 ++ s =
      (spikeLoop cand refr emit false (fuel + 1) u out []).2.2 := by
  rw [spikeLoop, spikeLoop]
  by_cases hacc : ([] : List ℕ).length < (cand u).length
  · rw [if_pos hacc, if_pos hacc, if_pos rfl, if_neg (by decide : ¬ (false = true))]
    constructor
    · simp
    · obtain ⟨s, hs⟩ := spikeLoop_train_extends cand refr emit fuel
        (addFrom u ((cand u).getD ([] : List ℕ).length 0) refr)
        (emit ((cand u).getD ([] : List ℕ).length 0) out)
        ([] ++ [(cand u).getD ([] : List ℕ).length 0])
      exact ⟨s, hs⟩
  · rw [if_neg hacc, if_neg hacc]
    exact ⟨by simp, ⟨[], rfl⟩⟩

/-- Indexing a map over `List.range`. -/
theorem getD_map_range {β : Type} (g : ℕ → β) (n i : ℕ) (d : β) (h : i < n) :
    ((List.range n).map g).getD i d = g i := by
  rw [List.getD_eq_getElem _ _ (by simp [h])]
  simp

/-- Per output neuron, the `latency=true` output-layer result has at most one
spike and is a prefix of the `latency=false` result. -/
theorem runOutputLayer_latency (net : NetParams) (numIter n : ℕ) (w : ℕ → ℕ → ℚ)
    (psps : List (List ℚ)) (i : ℕ) :
    ((runOutputLayer net numIter n w psps true).getD i []).length ≤ 1 ∧
    ∃ s, (runOutputLayer net numIter n w psps true).getD i [] ++ s =
      (runOutputLayer net numIter n w psps false).getD i [] := by
  unfold runOutputLayer
  by_cases hi : i < n
  · rw [getD_map_range _ n i [] hi, getD_map_range _ n i [] hi]
    exact spikeLoop_latency_first _ _ _ numIter _ _
  · rw [List.getD_eq_default _ _ (by simp [Nat.le_of_not_lt hi]),
      List.getD_eq_default _ _ (by simp [Nat.le_of_not_lt hi])]
    exact ⟨by simp, ⟨[], rfl⟩⟩

/-- Structural decomposition of the plain layer recursion: for a nonempty
layer list the spike trains are the latency-independent hidden-layer trains
followed by the output-layer trains, the output layer being run on the PSPs
accumulated through the hidden layers. -/
theorem runLayers_decomp (net : NetParams) (numIter : ℕ) :
    ∀ (layers : List (ℕ × (ℕ → ℕ → ℚ))) (psps : List (List ℚ)) (rng : RNG),
      layers ≠ [] →
      ∃ hiddenTrains pspsL nL wL, ∀ lat,
        (runLayers net numIter layers psps rng lat).1 =
          hiddenTrains ++ [runOutputLayer net numIter nL wL pspsL lat] := by
  intro layers
  induction layers with
  | nil => intro psps rng h; exact absurd rfl h
  | cons hd tlayers ih =>
    intro psps rng _
    obtain ⟨n, w⟩ := hd
    cases tlayers with
    | nil =>
      exact ⟨[], psps, n, w, fun lat => by rw [runLayers]; rfl⟩
    | cons hd2 t2 =>
      obtain ⟨hiddenTrains, pspsL, nL, wL, hrec⟩ :=
        ih (runHiddenLayer net numIter n w psps (rng.draw (n * numIter)).1).1
          (rng.draw (n * numIter)).2 (by simp)
      refine ⟨(runHiddenLayer net numIter n w psps (rng.draw (n * numIter)).1).2 ::
        hiddenTrains, pspsL, nL, wL, fun lat => ?_⟩
      rw [runLayers]
      rw [hrec lat]
      rfl

/-- Indexing a map. -/
theorem getD_map_lt {β γ : Type} (f : β → γ) (l : List β) (i : ℕ) (d : γ) (d' : β)
    (h : i < l.length) : (l.map f).getD i d = f (l.getD i d') := by
  rw [List.getD_eq_getElem _ _ (by simp [h]), List.getD_eq_getElem _ _ h]
  simp

/-- C2: with the same stimulus and the same generator state, `latency=true`
returns for each output neuron a spike train of length 0 or 1 that is a
prefix (in time) of the `latency=false` train, hidden-layer spike trains are
identical between the two calls, and the final generator state is the same. -/
theorem simulate_latency_prefix (net : NetParams)
    (layers : List (ℕ × (ℕ → ℕ → ℚ))) (stim : List (List ℚ)) (rng : RNG)
    (resT resF : List (List (List ℚ)) × RNG)
    (hne : layers ≠ [])
    (hT : simulate net layers stim rng true = .ok resT)
    (hF : simulate net layers stim rng false = .ok resF) :
    resT.2 = resF.2 ∧
    resT.1.dropLast = resF.1.dropLast ∧
    ∀ i, ((resT.1.getLastD []).getD i []).length ≤ 1 ∧
      ∃ s, (resT.1.getLastD []).getD i [] ++ s = (resF.1.getLastD []).getD i [] := by
  have hcond : (stim.headD []).length = net.lutPsp.length := by
    by_contra h
    unfold simulate at hT
    rw [if_neg h] at hT
    exact absurd hT (by simp)
  unfold simulate at hT hF
  rw [if_pos hcond] at hT hF
  obtain rfl := Except.ok.inj hT
  obtain rfl := Except.ok.inj hF
  obtain ⟨H, pspsL, nL, wL, hdec⟩ :=
    runLayers_decomp net ((stim.headD []).length) layers stim rng hne
  refine ⟨?_, ?_, ?_⟩
  · show (runLayers net _ layers stim rng true).2 = (runLayers net _ layers stim rng false).2
    rw [runLayers_rng, runLayers_rng]
  · show ((runLayers net _ layers stim rng true).1.map _).dropLast =
      ((runLayers net _ layers stim rng false).1.map _).dropLast
    rw [hdec true, hdec false, List.map_append, List.map_append]
    simp only [List.map_cons, List.map_nil]
    rw [List.dropLast_concat, List.dropLast_concat]
  · intro i
    show (((((runLayers net _ layers stim rng true).1.map _)).getLastD []).getD i []).length ≤ 1 ∧
      ∃ s, (((runLayers net _ layers stim rng true).1.map _).getLastD []).getD i [] ++ s =
        (((runLayers net _ layers stim rng false).1.map _).getLastD []).getD i []
    rw [hdec true, hdec false, List.map_append, List.map_append]
    simp only [List.map_cons, List.map_nil]
    rw [List.getLastD_eq_getLast?, List.getLastD_eq_getLast?,
      List.getLast?_concat, List.getLast?_concat]
    simp only [Option.getD_some]
    obtain ⟨hlen, s, hs⟩ := runOutputLayer_latency net ((stim.headD []).length) nL wL pspsL i
    by_cases hi : i < (runOutputLayer net ((stim.headD []).length) nL wL pspsL true).length
    · have hiF : i < (runOutputLayer net ((stim.headD []).length) nL wL pspsL false).length := by
        unfold runOutputLayer at hi ⊢
        simpa using (by simpa using hi : i < _)
      rw [getD_map_lt _ _ i [] [] hi, getD_map_lt _ _ i [] [] hiF]
      refine ⟨by simpa using hlen, ⟨s.map fun f : ℕ => (f : ℚ) * net.dt, ?_⟩⟩
      rw [← List.map_append, hs]
    · have hiF : ¬ i < (runOutputLayer net ((stim.headD []).length) nL wL pspsL false).length := by
        unfold runOutputLayer at hi ⊢
        simpa using (by simpa using hi : ¬ i < _)
      rw [List.getD_eq_default _ _ (by simpa using Nat.le_of_not_lt hi),
        List.getD_eq_default _ _ (by simpa using Nat.le_of_not_lt hiF)]
      exact ⟨by simp, ⟨[], rfl⟩⟩

/-- Witness for C2 on a 1-input/1-output network whose single output spike is
found by both the latency and the full search. -/
theorem simulate_latency_prefix_witness :
    ((([[[0]]] : List (List (List ℚ))).getLastD []).getD 0 []).length ≤ 1 ∧
    ∃ s, (([[[0]]] : List (List (List ℚ))).getLastD []).getD 0 [] ++ s =
      (([[[0]]] : List (List (List ℚ))).getLastD []).getD 0 [] := by
  have h := simulate_latency_prefix ⟨1, 0, fun _ => 0, [-1], [1]⟩ [(1, fun _ _ => 1)]
    [[1]] ⟨fun _ => 1, 0⟩ ([[[0]]], ⟨fun _ => 1, 0⟩) ([[[0]]], ⟨fun _ => 1, 0⟩)
    (List.cons_ne_nil _ _) (by with_unfolding_all rfl) (by with_unfolding_all rfl)
  exact h.2.2 0

/-- A weighted sum with an all-zero weight row is the zero trace. -/
theorem getD_weightedSum_zero (w : ℕ → ℚ) (hw : ∀ j, w j = 0)
    (psps : List (List ℚ)) (numIter t : ℕ) :
    (weightedSum w psps numIter).getD t 0 = 0 := by
  unfold weightedSum
  by_cases ht : t < numIter
  · rw [getD_map_range _ _ _ _ ht]
    apply List.sum_eq_zero
    intro x hx
    obtain ⟨j, _, rfl⟩ := List.mem_map.mp hx
    rw [hw j, zero_mul]
  · rw [List.getD_eq_default _ _ (by simp [Nat.le_of_not_lt ht])]

/-- A spike loop whose initial candidate set is empty breaks at once. -/
theorem spikeLoop_cand_nil {α : Type} (cand : List ℚ → List ℕ) (refr : ℕ → ℚ)
    (emit : ℕ → α → α) (lat : Bool) (fuel : ℕ) (u : List ℚ) (out : α)
    (h : cand u = []) :
    (spikeLoop cand refr emit lat fuel u out []).2.2 = [] := by
  cases fuel with
  | zero => rfl
  | succ fuel =>
    rw [spikeLoop, if_neg (by simp [h])]

/-- C3 counterexample: the claim fails as stated — with all-zero weights but a
stochastic escape model whose rate at zero potential is positive (here the
constant rate 1, as with the exponential hazard) and a generator stream of
small samples, the hidden neuron fires at every step: its spike train is
`[0, 1]`, not empty. -/
theorem zero_weights_hidden_fires_counterexample :
    ((simTrains ⟨1, 15, fun _ => 1, [-15, -15], [0, 0]⟩
        [(1, fun _ _ => 0), (1, fun _ _ => 0)] [[0, 0]] ⟨fun _ => 0, 0⟩ false).getD
      0 []).getD 0 [] = [0, 1] ∧ ([0, 1] : List ℚ) ≠ [] := by
  constructor
  · with_unfolding_all decide
  · decide

/-- C3 (amended): for every network whose weight tensors are all exactly zero,
`simulate` returns an empty spike train for every output neuron provided the
threshold is nonnegative, and for every hidden neuron provided every value of
the generator stream is at least `activation(0) * dt` (in particular for a
deterministic threshold escape model, whose rate at zero potential is 0).
With the stochastic exponential escape model the hidden rate at zero
potential is positive, so hidden neurons can fire for some generator
states. -/
theorem zero_weights_trains_empty (net : NetParams)
    (layers : List (ℕ × (ℕ → ℕ → ℚ))) (stim : List (List ℚ)) (stream0 : ℕ → ℚ)
    (pos : ℕ) (lat : Bool)
    (hw : ∀ e ∈ layers, ∀ i j, e.2 i j = 0)
    (htheta : 0 ≤ net.theta)
    (hs : ∀ k, net.act 0 * net.dt ≤ stream0 k) :
    ∀ layerTr ∈ simTrains net layers stim ⟨stream0, pos⟩ lat,
      ∀ tr ∈ layerTr, tr = [] := by
  have hrun : ∀ (layers2 : List (ℕ × (ℕ → ℕ → ℚ))) (psps : List (List ℚ))
      (pos2 : ℕ) (lat2 : Bool),
      (∀ e ∈ layers2, ∀ i j, e.2 i j = 0) →
      ∀ layerTr ∈ (runLayers net ((stim.headD []).length) layers2 psps
          ⟨stream0, pos2⟩ lat2).1, ∀ tr ∈ layerTr, tr = [] := by
    intro layers2
    induction layers2 with
    | nil => intro psps pos2 lat2 hw2 layerTr h; simp [runLayers] at h
    | cons hd tl ih =>
      intro psps pos2 lat2 hw2 layerTr hmem tr htr
      obtain ⟨n, w⟩ := hd
      have hw0 : ∀ i j, w i j = 0 := hw2 (n, w) (List.mem_cons_self _ _)
      cases tl with
      | nil =>
        simp only [runLayers, List.mem_singleton] at hmem
        subst hmem
        simp only [runOutputLayer, List.mem_map, List.mem_range] at htr
        obtain ⟨i, hi, htr⟩ := htr
        subst htr
        apply spikeLoop_cand_nil
        unfold outputCand
        apply candIdxs_eq_nil
        intro t ht
        rw [getD_weightedSum_zero (w i) (fun j => hw0 i j) psps _ t]
        exact decide_eq_false (not_lt.mpr htheta)
      | cons hd2 t2 =>
        simp only [runLayers] at hmem
        rcases List.mem_cons.mp hmem with h | h
        · subst h
          simp only [runHiddenLayer, List.mem_map, List.mem_range] at htr
          obtain ⟨r, ⟨i, hi, hr⟩, htr⟩ := htr
          subst hr
          subst htr
          apply spikeLoop_cand_nil
          unfold hiddenCand
          apply candIdxs_eq_nil
          intro t ht
          rw [getD_weightedSum_zero (w i) (fun j => hw0 i j) psps _ t]
          exact decide_eq_false (not_lt.mpr (hs _))
        · exact ih _ (pos2 + n * ((stim.headD []).length)) lat2
            (fun e he => hw2 e (List.mem_cons_of_mem _ he)) layerTr h tr htr
  intro layerTr hmem tr htr
  rcases simTrains_eq net layers stim ⟨stream0, pos⟩ lat with h | h
  · rw [h] at hmem
    simp at hmem
  · rw [h] at hmem
    obtain ⟨layer0, hl0, rfl⟩ := List.mem_map.mp hmem
    obtain ⟨tr0, htr0, rfl⟩ := List.mem_map.mp htr
    rw [hrun layers stim pos lat hw layer0 hl0 tr0 htr0]
    rfl

/-- Witness for C3 (amended): zero weights, θ = 0 and a deterministic escape
model with zero rate give an empty output spike train. -/
theorem zero_weights_trains_empty_witness :
    (0 : ℚ) ≤ 0 ∧
    ((simTrains ⟨1, 0, fun _ => 0, [-1], [0]⟩ [(1, fun _ _ => 0)] [[0]]
      ⟨fun _ => 0, 0⟩ false).getD 0 []).getD 0 [] = [] := by
  refine ⟨le_refl 0, ?_⟩
  exact zero_weights_trains_empty ⟨1, 0, fun _ => 0, [-1], [0]⟩
    [(1, fun _ _ => 0)] [[0]] (fun _ => 0) 0 false
    (fun e he i j => by rw [List.mem_singleton.mp he])
    (by decide)
    (by intro k; show (0 : ℚ) * 1 ≤ 0; with_unfolding_all decide)
    ((simTrains ⟨1, 0, fun _ => 0, [-1], [0]⟩ [(1, fun _ _ => 0)] [[0]]
      ⟨fun _ => 0, 0⟩ false).getD 0 [])
    (by with_unfolding_all decide)
    (((simTrains ⟨1, 0, fun _ => 0, [-1], [0]⟩ [(1, fun _ _ => 0)] [[0]]
      ⟨fun _ => 0, 0⟩ false).getD 0 []).getD 0 [])
    (by with_unfolding_all decide)

theorem maxQ?_mem (l : List ℚ) (m : ℚ) (h : maxQ? l = some m) : m ∈ l := by
  induction l generalizing m with
  | nil => simp [maxQ?] at h
  | cons a tl ih =>
    rw [maxQ?] at h
    cases htl : maxQ? tl with
    | none =>
      rw [htl] at h
      rw [← Option.some_inj.mp h]
      exact List.mem_cons_self a tl
    | some m2 =>
      rw [htl] at h
      have hmax := Option.some_inj.mp h
      rcases max_choice a m2 with hc | hc
      · rw [← hmax, hc]
        exact List.mem_cons_self a tl
      · rw [← hmax, hc]
        exact List.mem_cons_of_mem a (ih m2 htl)

theorem maxQ?_eq_getLast? (l : List ℚ) (h : l.Pairwise (· ≤ ·)) :
    maxQ? l = l.getLast? := by
  induction l with
  | nil => rfl
  | cons a tl ih =>
    rcases List.pairwise_cons.mp h with ⟨ha, htl⟩
    cases tl with
    | nil => rfl
    | cons b tl2 =>
      rw [List.getLast?_cons_cons, ← ih htl, maxQ?]
      cases htl2 : maxQ? (b :: tl2) with
      | none =>
        rw [maxQ?] at htl2
        cases h2 : maxQ? tl2 <;> rw [h2] at htl2 <;> exact absurd htl2 (by simp)
      | some m =>
        have hm : a ≤ m := ha m (maxQ?_mem _ _ htl2)
        show some (max a m) = some m
        rw [max_eq_right hm]

/-- C7 (amended): for sorted spike trains, the exponential learning window
pairs each post-spike with the most recent remaining pre-spike occurring *at
or before* it (the code masks with `pre_spikes <= t_post`, not strictly
before), yielding trace `expf (-(t_post - t_pre) / tau_m)` and `0` when none
remains; accepting a post-spike consumes all remaining pre-spikes at or
before it, so every pre-spike, used or skipped, pairs with at most one
post-spike.  Stated as equality with the specification-side pairing
`nnSpecTrace`. -/
theorem causalEXP_nearest_neighbour_pairing (expf : ℚ → ℚ) (tauM : ℚ) :
    ∀ (posts pres : List ℚ), pres.Pairwise (· ≤ ·) →
      causalEXP expf tauM posts pres = nnSpecTrace expf tauM posts pres := by
  intro posts
  induction posts with
  | nil => intro pres h; rfl
  | cons tpost rest ih =>
    intro pres h
    rw [causalEXP, nnSpecTrace]
    by_cases hnil : pres = []
    · subst hnil
      rw [if_pos rfl]
      exact congrArg (List.cons 0) (ih [] List.Pairwise.nil)
    · rw [if_neg hnil]
      have hsorted : (pres.filter fun s => decide (s ≤ tpost)).Pairwise (· ≤ ·) :=
        h.filter _
      cases hfe : pres.filter (fun s => decide (s ≤ tpost)) with
      | nil =>
        rw [if_pos rfl]
        exact congrArg (List.cons 0) (ih pres h)
      | cons x xs =>
        rw [if_neg (List.cons_ne_nil x xs)]
        have hmax : maxQ? (x :: xs) = some ((x :: xs).getLastD 0) := by
          rw [maxQ?_eq_getLast? _ (hfe ▸ hsorted), List.getLastD_eq_getLast?]
          cases hgl : (x :: xs).getLast? with
          | none => exact absurd (List.getLast?_eq_none_iff.mp hgl) (List.cons_ne_nil x xs)
          | some g => rfl
        rw [hmax]
        have hfilter : (pres.filter fun s => !decide (s ≤ tpost)) =
            pres.filter fun s => decide (tpost < s) := by
          apply List.filter_congr
          intro a _
          rw [← decide_not]
          exact decide_eq_decide.mpr not_le
        rw [hfilter]
        exact congrArg _ (ih _ (h.filter _))

/-- Witness for C7 on sorted concrete trains: post-spikes `[4, 6]` against
pre-spikes `[1, 2, 5]`. -/
theorem causalEXP_nearest_neighbour_pairing_witness :
    causalEXP (fun _ => 5) 1 [4, 6] [1, 2, 5] =
      nnSpecTrace (fun _ => 5) 1 [4, 6] [1, 2, 5] :=
  causalEXP_nearest_neighbour_pairing (fun _ => 5) 1 [4, 6] [1, 2, 5] (by decide)

/-- C7 counterexample to the claim as stated: a pre-spike at the *same* time
as the post-spike (no pre-spike strictly before it, so the claimed trace is
0) is paired by the code (`pre_spikes <= t_post`), giving trace
`expf 0 = 1 ≠ 0` for any exponential-like `expf`. -/
theorem causalEXP_equal_time_counterexample :
    causalEXP (fun q => 1 + q) 1 [0] [0] = [1] ∧ ((1 : ℚ)) ≠ 0 := by
  constructor
  · with_unfolding_all decide
  · decide
